import Mathlib

/-!
# Verification of the segment-refinement and chunked-transliteration core

Shallow embedding of the two algorithmic cores of the repository:

* `improve_speaker_consistency` from `sarvam_batch_stt.py` (diarization
  refinement: short-segment speaker reassignment followed by consecutive
  merge), together with the speaker-timing aggregation of
  `parse_transcription_results`;
* the chunking loop, the `<LINEBREAK>` placeholder protection/restoration
  of `transliterate_to_roman`, the per-chunk fallback of
  `_transliterate_chunk`, and the transcript assembly of
  `transcribe_audio_chunks`, all from `sarvam_stt.py`.

Python strings are modelled as `List Char`, floating-point times as `ℚ`
(the comparisons `< 2.0`, `> 3.0` and the percentage arithmetic are exact
on the rationals), and the external API calls as explicit function
parameters.  Python `while` loops over a cursor are modelled with a fuel
argument bounded by the text length (every iteration consumes at least one
character), and in-place mutation of the segment list is modelled by
explicit state passing.
-/

namespace Sarvam

/-- One diarized segment, as carried in the entry dicts of
`sarvam_batch_stt.py` (`speaker_id`, `transcript`, `start_time_seconds`,
`end_time_seconds`). -/
structure Segment where
  speaker_id : String
  transcript : String
  start_time_seconds : ℚ
  end_time_seconds : ℚ
deriving DecidableEq, Repr

/-- The body of the Rule 1 loop of `improve_speaker_consistency`
(`sarvam_batch_stt.py` lines 161-168): if the current segment is shorter
than 2 seconds, its neighbours carry the same speaker, and its own speaker
differs from the left neighbour's, its `speaker_id` is reassigned to the
left neighbour's. -/
def rule1Update (prev cur next : Segment) : Segment :=
  if cur.end_time_seconds - cur.start_time_seconds < 2 ∧
     prev.speaker_id = next.speaker_id ∧
     cur.speaker_id ≠ prev.speaker_id
  then { cur with speaker_id := prev.speaker_id }
  else cur

/-- Rule 1 of `improve_speaker_consistency` (`sarvam_batch_stt.py` lines
155-168), modelled by explicit state passing: the Python loop walks
`i = 1 .. n-2` left to right over a mutable list, reading the already
updated element `i-1` (`prev`), the not-yet-visited original elements `i`
(`cur`) and `i+1` (`next`), and rewriting `speaker_id` of element `i` in
place when the isolated-short-segment condition holds. -/
def rule1Go (prev : Segment) : List Segment → List Segment
  | cur :: next :: rest =>
    let cur' := rule1Update prev cur next
    cur' :: rule1Go cur' (next :: rest)
  | l => l

/-- Rule 1 applied to the whole list: the element at index 0 (and the last
element) are never candidates for reassignment. -/
def rule1 : List Segment → List Segment
  | [] => []
  | first :: rest => first :: rule1Go first rest

/-- One iteration of the Rule 2 loop of `improve_speaker_consistency`
(`sarvam_batch_stt.py` lines 173-184): state is the accumulated
`merged_entries` list and the optional `current_merged` segment. -/
def rule2Step (merged : List Segment) : Option Segment → Segment →
    List Segment × Option Segment
  | none, entry => (merged, some entry)
  | some c, entry =>
    if c.speaker_id ≠ entry.speaker_id ∨
       entry.start_time_seconds - c.end_time_seconds > 3 then
      (merged ++ [c], some entry)
    else
      (merged, some { c with
        transcript := c.transcript ++ " " ++ entry.transcript,
        end_time_seconds := entry.end_time_seconds })

/-- Rule 2 of `improve_speaker_consistency` (`sarvam_batch_stt.py` lines
170-188): fold the step over the entries, then flush the final
`current_merged` if present. -/
def rule2 (l : List Segment) : List Segment :=
  match l.foldl (fun st e => rule2Step st.1 st.2 e) ([], none) with
  | (merged, none) => merged
  | (merged, some c) => merged ++ [c]

/-- `improve_speaker_consistency` (`sarvam_batch_stt.py` lines 146-190):
inputs of fewer than 3 segments are returned unchanged, otherwise Rule 1
(short-segment reassignment) then Rule 2 (consecutive merge). -/
def improve_speaker_consistency (entries : List Segment) : List Segment :=
  if entries.length < 3 then entries
  else rule2 (rule1 entries)

/-- Spec-side restatement of pass 2, written from the spec's words: walk
left to right keeping a current merged segment; a new merged segment is
started exactly when the element is the first one, or its speaker differs
from the current merged segment's, or its start minus the current merged
segment's end exceeds 3.0; otherwise the transcript is appended with a
single space and the end time advanced.  To be compared with `rule2`. -/
def mergeSpecGo (cm : Segment) : List Segment → List Segment
  | [] => [cm]
  | e :: rest =>
    if cm.speaker_id = e.speaker_id ∧
       e.start_time_seconds - cm.end_time_seconds ≤ 3 then
      mergeSpecGo { cm with
        transcript := cm.transcript ++ " " ++ e.transcript,
        end_time_seconds := e.end_time_seconds } rest
    else
      cm :: mergeSpecGo e rest

/-- Spec-side pass 2 on a whole list. -/
def mergeSpec : List Segment → List Segment
  | [] => []
  | e :: rest => mergeSpecGo e rest

/-- Flushing the final `current_merged` (`sarvam_batch_stt.py` lines
186-187), split out of `rule2` for the proofs below. -/
def rule2Flush : List Segment × Option Segment → List Segment
  | (merged, none) => merged
  | (merged, some c) => merged ++ [c]

/-- The relation Rule 2 enforces between two adjacent output segments:
different speakers, or a silence gap of strictly more than 3 seconds. -/
def adjOk (a b : Segment) : Prop :=
  a.speaker_id ≠ b.speaker_id ∨
  b.start_time_seconds - a.end_time_seconds > 3

/-- `speaker_times[speaker] = speaker_times.get(speaker, 0.0) + duration`
(`sarvam_batch_stt.py` line 245): update an insertion-ordered association
list the way a Python dict is updated. -/
def addTime (sp : String) (d : ℚ) : List (String × ℚ) → List (String × ℚ)
  | [] => [(sp, d)]
  | (s, t) :: rest =>
    if s = sp then (s, t + d) :: rest else (s, t) :: addTime sp d rest

/-- The `speaker_times` dict built by the entry loop of
`parse_transcription_results` (`sarvam_batch_stt.py` lines 233-245). -/
def speaker_times (l : List Segment) : List (String × ℚ) :=
  l.foldl
    (fun acc e =>
      addTime e.speaker_id (e.end_time_seconds - e.start_time_seconds) acc)
    []

/-- `total_time = sum(speaker_times.values())`
(`sarvam_batch_stt.py` line 267). -/
def total_time (l : List Segment) : ℚ :=
  ((speaker_times l).map Prod.snd).sum

/-- The `speaker_percentages` dict (`sarvam_batch_stt.py` lines 268-270):
filled only when `total_time > 0`, each speaker mapping to
`(time_sec / total_time) * 100`. -/
def speaker_percentages (l : List Segment) : List (String × ℚ) :=
  if total_time l > 0 then
    (speaker_times l).map (fun p => (p.1, p.2 / total_time l * 100))
  else []

/-! ## Text model for `sarvam_stt.py`

Python strings are `List Char`.  `str.replace` and the `while` loops are
modelled with a fuel argument equal to the string length: every iteration
consumes at least one character, so the fuel never runs out on the inputs
the code reaches (made precise by the fuel-irrelevance lemmas below), and
all definitions compute by `decide`/`rfl`. -/

/-- The bare sentinel `"<LINEBREAK>"` of `transliterate_to_roman`. -/
def lbMarker : List Char := "<LINEBREAK>".toList

/-- The padded sentinel `" <LINEBREAK> "` substituted for each line break
(`sarvam_stt.py` line 196). -/
def lbPadded : List Char := " <LINEBREAK> ".toList

/-- The `"[Error:"` sentinel used by `startswith` checks
(`sarvam_stt.py` lines 188, 348). -/
def errTag : List Char := "[Error:".toList

/-- Python `str.replace(pat, rep)` with fuel: scans left to right, replaces
non-overlapping occurrences, never rescans the replacement.  On a match at
`c :: rest` the remainder is `rest` minus the matched tail, i.e.
`rest.drop (pat.length - 1)`. -/
def replaceAllF (pat rep : List Char) : Nat → List Char → List Char
  | _, [] => []
  | 0, s => s
  | fuel + 1, c :: rest =>
    if pat ≠ [] ∧ pat.isPrefixOf (c :: rest) then
      rep ++ replaceAllF pat rep fuel (rest.drop (pat.length - 1))
    else
      c :: replaceAllF pat rep fuel rest

/-- Python `s.replace(pat, rep)` (for the nonempty patterns the code
uses). -/
def pyReplace (pat rep s : List Char) : List Char :=
  replaceAllF pat rep s.length s

/-- Step 1 of `transliterate_to_roman` (`sarvam_stt.py` line 196):
`text.replace('\n', ' <LINEBREAK> ')`. -/
def protect (text : List Char) : List Char :=
  pyReplace [ '\n' ] lbPadded text

/-- Step 3 of `transliterate_to_roman` (`sarvam_stt.py` lines 204, 237):
`result.replace(' <LINEBREAK> ', '\n').replace('<LINEBREAK>', '\n')`. -/
def restore (s : List Char) : List Char :=
  pyReplace lbMarker [ '\n' ] (pyReplace lbPadded [ '\n' ] s)

/-- The break characters of the chunking scan
(`sarvam_stt.py` line 221: `[' ', '.', '!', '?', ',']`). -/
def breakChars : List Char := [ ' ', '.', '!', '?', ',' ]

/-- `text[i] in [' ','.','!','?',','] or text[i:i+11] == '<LINEBREAK>'`
(`sarvam_stt.py` line 221); Python slicing clamps, hence `drop`/`take`. -/
def isBreakAt (t : List Char) (i : Nat) : Bool :=
  (match t[i]? with
   | some c => breakChars.contains c
   | none => false) ||
  ((t.drop i).take 11 == lbMarker)

/-- `for i in range(end, lo, -1): if isBreakAt ...` (`sarvam_stt.py` lines
220-223), as a countdown: `scanBack t lo k` inspects positions
`lo + k, lo + k - 1, ..., lo + 1` in that order and returns the first
break position found. -/
def scanBack (t : List Char) (lo : Nat) : Nat → Option Nat
  | 0 => none
  | k + 1 =>
    if isBreakAt t (lo + k + 1) then some (lo + k + 1)
    else scanBack t lo k

/-- The chunking `while` loop of `transliterate_to_roman`
(`sarvam_stt.py` lines 210-226) with fuel: tentative cut at
`start + N`; if that reaches the end the remainder is the final chunk;
otherwise scan back from `start + N` down to `max start (start + N - 100)`
(exclusive) for a break position `i` and cut at `i + 1`, falling back to a
hard cut at `start + N`. -/
def chunkGo (t : List Char) (N : Nat) : Nat → Nat → List (List Char)
  | 0, _ => []
  | fuel + 1, start =>
    if start < t.length then
      if t.length ≤ start + N then
        [t.drop start]
      else
        let lo := max start (start + N - 100)
        let bp :=
          match scanBack t lo (start + N - lo) with
          | some i => i + 1
          | none => start + N
        (t.drop start).take (bp - start) :: chunkGo t N fuel bp
    else []

/-- The chunk sequence produced for `t` with maximum size `N`: the loop
started at cursor 0, with enough fuel since every iteration emits at least
one character. -/
def chunk (t : List Char) (N : Nat) : List (List Char) :=
  chunkGo t N t.length 0

/-- Outcome of one call to the external transliteration API inside
`_transliterate_chunk`: the call raises, or returns a response without the
`transliterated_text` attribute, or returns transliterated text. -/
inductive ApiOutcome where
  | raises : ApiOutcome
  | missingField : ApiOutcome
  | ok : List Char → ApiOutcome
deriving DecidableEq

/-- `_transliterate_chunk` (`sarvam_stt.py` lines 300-320): return the
response's `transliterated_text` when present, and fall back to the
original chunk text when the field is missing or the call raises. -/
def transliterate_chunk (api : List Char → ApiOutcome) (piece : List Char) :
    List Char :=
  match api piece with
  | .ok t => t
  | .missingField => piece
  | .raises => piece

/-- `transliterate_to_roman` (`sarvam_stt.py` lines 171-242), parameterized
by the external API: empty or `"[Error:"`-flagged text is returned
unchanged; otherwise line breaks are protected, the text is transliterated
as one chunk when at most 900 characters and otherwise chunk by chunk with
the results joined by `"".join`, and the sentinels are restored. -/
def transliterate_to_roman (api : List Char → ApiOutcome) (text : List Char) :
    List Char :=
  if text = [] then text
  else if errTag.isPrefixOf text then text
  else
    let tp := protect text
    if tp.length ≤ 900 then
      restore (transliterate_chunk api tp)
    else
      restore (((chunk tp 900).map (transliterate_chunk api)).flatten)

/-- The identity transliteration API: every call succeeds and returns its
input unchanged. -/
def apiId : List Char → ApiOutcome := fun s => ApiOutcome.ok s

/-- ASCII approximation of Python's whitespace class (`str.strip`, regex
`\s`). -/
def isPySpace (c : Char) : Bool :=
  c = ' ' || c = '\t' || c = '\n' || c = '\r' || c = '\x0B' || c = '\x0C'

/-- Python `str.strip()`: drop leading and trailing whitespace. -/
def pyStrip (s : List Char) : List Char :=
  ((s.dropWhile isPySpace).reverse.dropWhile isPySpace).reverse

/-- The `full_transcript` list built by the loop of
`transcribe_audio_chunks` (`sarvam_stt.py` lines 345-356), as a function of
the per-chunk `transcribe_chunk` results: keep a result when it is
non-empty, not `"[Error:"`-flagged, and still non-empty after stripping;
the stripped text is what is kept. -/
def fullTranscript : List (List Char) → List (List Char)
  | [] => []
  | t :: rest =>
    if t ≠ [] ∧ ¬ errTag.isPrefixOf t then
      if pyStrip t ≠ [] then pyStrip t :: fullTranscript rest
      else fullTranscript rest
    else fullTranscript rest

/-- The marker string `f"\n--- Chunk {i+1}-{min(i+10, n)} ---"`
(`sarvam_stt.py` line 372). -/
def chunkTag (i n : Nat) : List Char :=
  '\n' :: ("--- Chunk ".toList ++ (toString (i + 1)).toList ++
    ('-' :: (toString (min (i + 10) n)).toList) ++ " ---".toList)

/-- The `combined_chunks` list (`sarvam_stt.py` lines 366-375): each kept
transcript re-stripped, with a chunk marker inserted before every tenth
transcript when there are more than 10. -/
def combineGo (n : Nat) : Nat → List (List Char) → List (List Char)
  | _, [] => []
  | i, t :: rest =>
    if i % 10 = 0 ∧ n > 10 then
      chunkTag i n :: pyStrip t :: combineGo n (i + 1) rest
    else
      pyStrip t :: combineGo n (i + 1) rest

/-- `re.sub(r' +', ' ', s)` (`sarvam_stt.py` line 381): every maximal run
of spaces becomes a single space, here by dropping each space that is
immediately followed by another. -/
def collapseSpaces : List Char → List Char
  | [] => []
  | [c] => [c]
  | c :: d :: rest =>
    if c = ' ' ∧ d = ' ' then collapseSpaces (d :: rest)
    else c :: collapseSpaces (d :: rest)

/-- The four punctuation-spacing fixes (`sarvam_stt.py` lines 382-383), in
source order. -/
def fixPunct (s : List Char) : List Char :=
  pyReplace " !".toList "!".toList (pyReplace " ?".toList "?".toList
    (pyReplace " ,".toList ",".toList (pyReplace " .".toList ".".toList s)))

/-- The sentence-ending class `[.!?]` of the assembly regexes. -/
def sentencePunct (c : Char) : Bool := c = '.' || c = '!' || c = '?'

/-- `re.sub(r'([.!?])\s+([A-Z])', r'\1\n\2', s)` (`sarvam_stt.py` line
386) with fuel: after a sentence-ending character, a nonempty whitespace
run followed by an ASCII capital is replaced by a single line break
(scanning resumes after the capital). -/
def breakSentencesF : Nat → List Char → List Char
  | _, [] => []
  | 0, s => s
  | fuel + 1, c :: rest =>
    if sentencePunct c ∧ rest.takeWhile isPySpace ≠ [] then
      match rest.dropWhile isPySpace with
      | u :: rest2 =>
        if 'A' ≤ u ∧ u ≤ 'Z' then c :: '\n' :: u :: breakSentencesF fuel rest2
        else c :: breakSentencesF fuel rest
      | [] => c :: breakSentencesF fuel rest
    else c :: breakSentencesF fuel rest

/-- `re.sub(r'([.!?])\s+([A-Z])', r'\1\n\2', s)`. -/
def breakSentences (s : List Char) : List Char := breakSentencesF s.length s

/-- `re.sub(r'([.!?])\s+', r'\1\n', s)` (`sarvam_stt.py` line 389) with
fuel: whitespace after a sentence-ending character becomes one line
break. -/
def breakAfterPunctF : Nat → List Char → List Char
  | _, [] => []
  | 0, s => s
  | fuel + 1, c :: rest =>
    if sentencePunct c ∧ rest.takeWhile isPySpace ≠ [] then
      c :: '\n' :: breakAfterPunctF fuel (rest.dropWhile isPySpace)
    else c :: breakAfterPunctF fuel rest

/-- `re.sub(r'([.!?])\s+', r'\1\n', s)`. -/
def breakAfterPunct (s : List Char) : List Char := breakAfterPunctF s.length s

/-- `re.sub(r'\n{3,}', '\n\n', s)` (`sarvam_stt.py` line 392) with fuel:
every maximal run of at least three line breaks becomes exactly two. -/
def collapseNewlinesF : Nat → List Char → List Char
  | _, [] => []
  | 0, s => s
  | fuel + 1, c :: rest =>
    if c = '\n' ∧ 2 ≤ (rest.takeWhile (fun d => d = '\n')).length then
      '\n' :: '\n' :: collapseNewlinesF fuel (rest.dropWhile (fun d => d = '\n'))
    else c :: collapseNewlinesF fuel rest

/-- `re.sub(r'\n{3,}', '\n\n', s)`. -/
def collapseNewlines (s : List Char) : List Char := collapseNewlinesF s.length s

/-- The assembly stage of `transcribe_audio_chunks` (`sarvam_stt.py` lines
362-394): build `combined_chunks`, join with `"\n\n"`, strip, then the
whitespace/punctuation clean-ups in source order. -/
def assemble (full : List (List Char)) : List Char :=
  collapseNewlines (breakAfterPunct (breakSentences (fixPunct (collapseSpaces
    (pyStrip (List.intercalate ('\n' :: '\n' :: [])
      (combineGo full.length 0 full)))))))

/-- `"[Error: No chunks were successfully transcribed]"`
(`sarvam_stt.py` line 359). -/
def errMarker : List Char :=
  "[Error: No chunks were successfully transcribed]".toList

/-- `transcribe_audio_chunks` (`sarvam_stt.py` lines 338-394) as a function
of the per-chunk `transcribe_chunk` results: the explicit error marker when
no chunk survives the filter, otherwise the assembly of the surviving
chunks. -/
def transcribe_audio_chunks (ts : List (List Char)) : List Char :=
  if fullTranscript ts = [] then errMarker
  else assemble (fullTranscript ts)

end Sarvam

namespace Sarvam

/-! ## Helper lemmas about `pyReplace` -/

theorem replaceAllF_fuel (pat rep : List Char) :
    ∀ (f₁ f₂ : Nat) (s : List Char), s.length ≤ f₁ → s.length ≤ f₂ →
      replaceAllF pat rep f₁ s = replaceAllF pat rep f₂ s
  | 0, f₂, s, h₁, h₂ => by
    have hs : s = [] := List.length_eq_zero.mp (Nat.le_zero.mp h₁)
    subst hs
    cases f₂ <;> rfl
  | f₁ + 1, f₂, s, h₁, h₂ => by
    cases s with
    | nil => cases f₂ <;> rfl
    | cons c rest =>
      cases f₂ with
      | zero => simp at h₂
      | succ g =>
        simp only [replaceAllF]
        by_cases h : pat ≠ [] ∧ pat.isPrefixOf (c :: rest)
        · rw [if_pos h, if_pos h]
          have hlen : (rest.drop (pat.length - 1)).length ≤ rest.length := by
            rw [List.length_drop]
            omega
          have := replaceAllF_fuel pat rep f₁ g (rest.drop (pat.length - 1))
            (by simp at h₁; omega) (by simp at h₂; omega)
          rw [this]
        · rw [if_neg h, if_neg h]
          have := replaceAllF_fuel pat rep f₁ g rest
            (by simp at h₁; omega) (by simp at h₂; omega)
          rw [this]

theorem pyReplace_nil (pat rep : List Char) : pyReplace pat rep [] = [] := rfl

theorem pyReplace_cons_pos (pat rep : List Char) (c : Char) (rest : List Char)
    (hne : pat ≠ []) (hp : pat.isPrefixOf (c :: rest)) :
    pyReplace pat rep (c :: rest) =
      rep ++ pyReplace pat rep (rest.drop (pat.length - 1)) := by
  show replaceAllF pat rep (rest.length + 1) (c :: rest) = _
  rw [replaceAllF, if_pos ⟨hne, hp⟩]
  congr 1
  exact replaceAllF_fuel pat rep rest.length
    (rest.drop (pat.length - 1)).length (rest.drop (pat.length - 1))
    (by rw [List.length_drop]; omega) le_rfl

theorem pyReplace_cons_neg (pat rep : List Char) (c : Char) (rest : List Char)
    (h : ¬ pat.isPrefixOf (c :: rest)) :
    pyReplace pat rep (c :: rest) = c :: pyReplace pat rep rest := by
  show replaceAllF pat rep (rest.length + 1) (c :: rest) = _
  rw [replaceAllF, if_neg (by rintro ⟨-, hp⟩; exact h hp)]
  rfl

theorem pyReplace_head_match (pat rep tail : List Char) (hne : pat ≠ []) :
    pyReplace pat rep (pat ++ tail) = rep ++ pyReplace pat rep tail := by
  cases pat with
  | nil => exact absurd rfl hne
  | cons p ps =>
    have hp : (p :: ps).isPrefixOf (p :: (ps ++ tail)) :=
      List.isPrefixOf_iff_prefix.mpr (List.prefix_append (p :: ps) tail)
    have hd : (ps ++ tail).drop ((p :: ps).length - 1) = tail := by
      simp only [List.length_cons, Nat.add_sub_cancel]
      exact List.drop_left ps tail
    rw [List.cons_append, pyReplace_cons_pos (p :: ps) rep p (ps ++ tail) hne hp, hd]

theorem pyReplace_no_occurrence (pat rep : List Char) (hne : pat ≠ []) :
    ∀ s : List Char, ¬ pat <:+: s → pyReplace pat rep s = s
  | [], _ => rfl
  | c :: rest, h => by
    have hp : ¬ pat.isPrefixOf (c :: rest) := by
      intro hp
      exact h (List.isPrefixOf_iff_prefix.mp hp).isInfix
    rw [pyReplace_cons_neg _ _ _ _ hp,
      pyReplace_no_occurrence pat rep hne rest
        (fun hi => h (List.infix_cons hi))]

/-! ## The sentinel round trip -/

theorem protect_nil : protect [] = [] := rfl

theorem protect_cons_lf (rest : List Char) :
    protect ('\n' :: rest) = lbPadded ++ protect rest := by
  unfold protect
  rw [show ('\n' :: rest) = [ '\n' ] ++ rest from rfl,
    pyReplace_head_match _ _ _ (by decide)]

theorem protect_cons (c : Char) (rest : List Char) (hc : c ≠ '\n') :
    protect (c :: rest) = c :: protect rest := by
  unfold protect
  rw [pyReplace_cons_neg]
  intro hp
  rcases List.isPrefixOf_iff_prefix.mp hp with ⟨t, ht⟩
  rw [List.cons_append] at ht
  exact hc (List.head_eq_of_cons_eq ht).symm

theorem prefix_protect (u : List Char) (hu : ∀ c ∈ u, c ≠ '\n' ∧ c ≠ ' ') :
    ∀ s : List Char, (u <+: protect s ↔ u <+: s)
  | [] => by rw [protect_nil]
  | c :: rest => by
    by_cases hc : c = '\n'
    · subst hc
      rw [protect_cons_lf]
      cases u with
      | nil => simp
      | cons a u' =>
        have ha := hu a (List.mem_cons_self a u')
        constructor
        · intro hpre
          rw [show lbPadded ++ protect rest =
              ' ' :: (lbMarker ++ [ ' ' ] ++ protect rest) from rfl,
            List.cons_prefix_cons] at hpre
          exact absurd hpre.1 ha.2
        · intro hpre
          rw [List.cons_prefix_cons] at hpre
          exact absurd hpre.1 ha.1
    · rw [protect_cons c rest hc]
      cases u with
      | nil => simp
      | cons a u' =>
        rw [List.cons_prefix_cons, List.cons_prefix_cons,
          prefix_protect u' (fun d hd => hu d (List.mem_cons_of_mem a hd)) rest]

theorem pyReplace_padded_protect :
    ∀ t : List Char, ¬ lbMarker <:+: t →
      pyReplace lbPadded [ '\n' ] (protect t) = t
  | [], _ => rfl
  | c :: rest, h => by
    have hrest : ¬ lbMarker <:+: rest := fun hi => h (List.infix_cons hi)
    by_cases hc : c = '\n'
    · subst hc
      rw [protect_cons_lf, pyReplace_head_match _ _ _ (by decide),
        pyReplace_padded_protect rest hrest]
      rfl
    · rw [protect_cons c rest hc, pyReplace_cons_neg, pyReplace_padded_protect rest hrest]
      intro hp
      have hpre := List.isPrefixOf_iff_prefix.mp hp
      rw [show lbPadded = ' ' :: (lbMarker ++ [ ' ' ]) from rfl,
        List.cons_prefix_cons] at hpre
      rcases hpre with ⟨hsp, htail⟩
      have hm : lbMarker <+: protect rest :=
        (List.prefix_append lbMarker [ ' ' ]).trans htail
      have : lbMarker <+: rest :=
        (prefix_protect lbMarker (by decide) rest).mp hm
      exact h (List.infix_cons this.isInfix)

theorem restore_protect (t : List Char) (h : ¬ lbMarker <:+: t) :
    restore (protect t) = t := by
  unfold restore
  rw [pyReplace_padded_protect t h,
    pyReplace_no_occurrence lbMarker [ '\n' ] (by decide) t h]

/-! ## Helper lemmas about the chunking loop -/

theorem scanBack_some (t : List Char) (lo : Nat) :
    ∀ k i, scanBack t lo k = some i → lo < i ∧ i ≤ lo + k := by
  intro k
  induction k with
  | zero => intro i h; simp [scanBack] at h
  | succ k ih =>
    intro i h
    rw [scanBack] at h
    by_cases hb : isBreakAt t (lo + k + 1)
    · rw [if_pos hb, Option.some_inj] at h
      omega
    · rw [if_neg hb] at h
      have := ih i h
      omega

theorem chunkGo_cons (t : List Char) (N fuel start : Nat)
    (h1 : start < t.length) (h2 : ¬ t.length ≤ start + N) :
    chunkGo t N (fuel + 1) start =
      (t.drop start).take
          ((match scanBack t (max start (start + N - 100))
              (start + N - max start (start + N - 100)) with
            | some i => i + 1
            | none => start + N) - start) ::
        chunkGo t N fuel
          (match scanBack t (max start (start + N - 100))
              (start + N - max start (start + N - 100)) with
            | some i => i + 1
            | none => start + N) := by
  rw [chunkGo, if_pos h1, if_neg h2]

theorem chunkGo_bp_lt (t : List Char) (N start : Nat) (hN : 1 ≤ N) :
    start <
      (match scanBack t (max start (start + N - 100))
          (start + N - max start (start + N - 100)) with
        | some i => i + 1
        | none => start + N) := by
  cases hsb : scanBack t (max start (start + N - 100))
      (start + N - max start (start + N - 100)) with
  | none =>
    simp only [hsb]
    show start < start + N
    omega
  | some i =>
    have := scanBack_some t _ _ i hsb
    simp only [hsb]
    show start < i + 1
    omega

theorem chunkGo_bp_le (t : List Char) (N start : Nat) :
    (match scanBack t (max start (start + N - 100))
        (start + N - max start (start + N - 100)) with
      | some i => i + 1
      | none => start + N) ≤ start + N + 1 := by
  cases hsb : scanBack t (max start (start + N - 100))
      (start + N - max start (start + N - 100)) with
  | none =>
    simp only [hsb]
    show start + N ≤ start + N + 1
    omega
  | some i =>
    have := scanBack_some t _ _ i hsb
    simp only [hsb]
    show i + 1 ≤ start + N + 1
    omega

theorem chunkGo_length_le (t : List Char) (N : Nat) :
    ∀ (fuel start : Nat), ∀ c ∈ chunkGo t N fuel start, c.length ≤ N + 1 := by
  intro fuel
  induction fuel with
  | zero => intro start c hc; simp [chunkGo] at hc
  | succ fuel ih =>
    intro start c hc
    by_cases h1 : start < t.length
    · by_cases h2 : t.length ≤ start + N
      · rw [chunkGo, if_pos h1, if_pos h2, List.mem_singleton] at hc
        subst hc
        rw [List.length_drop]
        omega
      · rw [chunkGo_cons t N fuel start h1 h2, List.mem_cons] at hc
        rcases hc with hc | hc
        · subst hc
          have := chunkGo_bp_le t N start
          rw [List.length_take]
          omega
        · exact ih _ c hc
    · rw [chunkGo, if_neg h1] at hc
      simp at hc

theorem chunkGo_flatten (t : List Char) (N : Nat) (hN : 1 ≤ N) :
    ∀ (fuel start : Nat), t.length - start ≤ fuel →
      (chunkGo t N fuel start).flatten = t.drop start := by
  intro fuel
  induction fuel with
  | zero =>
    intro start hf
    rw [chunkGo, List.flatten_nil, eq_comm]
    exact List.drop_eq_nil_of_le (by omega)
  | succ fuel ih =>
    intro start hf
    by_cases h1 : start < t.length
    · by_cases h2 : t.length ≤ start + N
      · rw [chunkGo, if_pos h1, if_pos h2]
        simp
      · rw [chunkGo_cons t N fuel start h1 h2, List.flatten_cons]
        have hlt := chunkGo_bp_lt t N start hN
        have hle := chunkGo_bp_le t N start
        set bp := (match scanBack t (max start (start + N - 100))
            (start + N - max start (start + N - 100)) with
          | some i => i + 1
          | none => start + N) with hbp
        rw [ih bp (by omega)]
        have hdd : t.drop bp = (t.drop start).drop (bp - start) := by
          rw [List.drop_drop]
          congr 1
          omega
        rw [hdd, List.take_append_drop]
    · rw [chunkGo, if_neg h1, List.flatten_nil, eq_comm]
      exact List.drop_eq_nil_of_le (by omega)

/-! ## Claim theorems about the chunking loop -/

/-- C1 counterexample: with `max_size = 1` on `"a b"`, the backward scan
inspects the position `start + max_size` itself, so the break at the space
yields the chunk `"a "` of length 2 > 1, although it is neither a hard cut
nor a final unbreakable remainder. -/
theorem chunk_oversize_cex :
    chunk ('a' :: ' ' :: 'b' :: []) 1 = [[ 'a', ' ' ], [ 'b' ]] ∧
    ¬ (∀ c ∈ chunk ('a' :: ' ' :: 'b' :: []) 1, c.length ≤ 1) := by
  decide

/-- C1 (amended): for every text and `max_size` `N ≥ 1`, every chunk
produced by the chunking loop has length at most `N + 1` (a break
character or marker at exactly the tentative cut position `start + N`
yields a chunk of `N + 1` characters; otherwise chunks have length at most
`N`, the hard cut exactly `N`). -/
theorem chunk_size_le (t : List Char) (N : Nat) (hN : 1 ≤ N) :
    ∀ c ∈ chunk t N, c.length ≤ N + 1 := fun c hc =>
  chunkGo_length_le t N t.length 0 c hc

/-- Witness for C1 (amended) at `max_size = 3` on `"ab cd"`. -/
theorem chunk_size_le_witness :
    1 ≤ 3 ∧ ∀ c ∈ chunk "ab cd".toList 3, c.length ≤ 3 + 1 :=
  ⟨by decide, chunk_size_le "ab cd".toList 3 (by decide)⟩

/-- C2: for every text and every `max_size` `N ≥ 1`, concatenating the
chunks produced by the chunking loop in order reproduces the input text
exactly. -/
theorem chunk_concat (t : List Char) (N : Nat) (hN : 1 ≤ N) :
    (chunk t N).flatten = t := by
  have h := chunkGo_flatten t N hN t.length 0 (by omega)
  rwa [List.drop_zero] at h

/-- Witness for C2 at `max_size = 2` on `"ab cd"`. -/
theorem chunk_concat_witness :
    1 ≤ 2 ∧ (chunk "ab cd".toList 2).flatten = "ab cd".toList :=
  ⟨by decide, chunk_concat "ab cd".toList 2 (by decide)⟩

/-! ## Claim theorems about the transliteration pipeline -/

/-- C5 counterexample: the text `"\n<LINEBREAK>"` contains a line break,
but the identity-transliteration round trip maps it to `"\n\n"`: the
restore step also rewrites sentinel text that was already present in the
input. -/
theorem transliterate_roundtrip_cex :
    '\n' ∈ ('\n' :: lbMarker) ∧
    transliterate_to_roman apiId ('\n' :: lbMarker) ≠ '\n' :: lbMarker := by
  decide

/-- C5 (amended): for every text containing a line break and not containing
the literal substring `"<LINEBREAK>"`, `transliterate_to_roman` with the
identity per-chunk transliteration returns the text unchanged. -/
theorem transliterate_id_roundtrip (text : List Char) (hlb : '\n' ∈ text)
    (hm : ¬ lbMarker <:+: text) :
    transliterate_to_roman apiId text = text := by
  show (if text = [] then text
    else if errTag.isPrefixOf text then text
    else if (protect text).length ≤ 900 then
      restore (transliterate_chunk apiId (protect text))
    else
      restore (((chunk (protect text) 900).map
        (transliterate_chunk apiId)).flatten)) = text
  by_cases h0 : text = []
  · rw [if_pos h0]
  · rw [if_neg h0]
    by_cases h1 : errTag.isPrefixOf text
    · rw [if_pos h1]
    · rw [if_neg h1]
      by_cases h2 : (protect text).length ≤ 900
      · rw [if_pos h2]
        exact restore_protect text hm
      · rw [if_neg h2, show transliterate_chunk apiId = id from rfl,
          List.map_id]
        have h := chunkGo_flatten (protect text) 900 (by omega)
          (protect text).length 0 (by omega)
        rw [List.drop_zero] at h
        rw [show chunk (protect text) 900 =
            chunkGo (protect text) 900 (protect text).length 0 from rfl, h]
        exact restore_protect text hm

/-- Witness for C5 (amended) on `"a\nb"`. -/
theorem transliterate_id_roundtrip_witness :
    '\n' ∈ "a\nb".toList ∧ ¬ lbMarker <:+: "a\nb".toList ∧
    transliterate_to_roman apiId "a\nb".toList = "a\nb".toList :=
  ⟨by decide, by decide,
    transliterate_id_roundtrip "a\nb".toList (by decide) (by decide)⟩

/-- C6: when the external call for a chunk raises or its response lacks the
`transliterated_text` field, `_transliterate_chunk` returns the chunk's
original sentinel-bearing text; and when every call fails this way, the
pipeline still processes every chunk and returns the protected text with
its sentinels restored instead of aborting. -/
theorem transliterate_chunk_failure_policy :
    (∀ (api : List Char → ApiOutcome) (piece : List Char),
      api piece = ApiOutcome.raises ∨ api piece = ApiOutcome.missingField →
      transliterate_chunk api piece = piece) ∧
    (∀ (api : List Char → ApiOutcome) (text : List Char),
      (∀ c, api c = ApiOutcome.raises ∨ api c = ApiOutcome.missingField) →
      text ≠ [] → ¬ errTag.isPrefixOf text →
      transliterate_to_roman api text = restore (protect text)) := by
  have h1 : ∀ (api : List Char → ApiOutcome) (piece : List Char),
      api piece = ApiOutcome.raises ∨ api piece = ApiOutcome.missingField →
      transliterate_chunk api piece = piece := by
    intro api piece h
    unfold transliterate_chunk
    rcases h with h | h <;> rw [h]
  refine ⟨h1, fun api text hfail h0 he => ?_⟩
  show (if text = [] then text
    else if errTag.isPrefixOf text then text
    else if (protect text).length ≤ 900 then
      restore (transliterate_chunk api (protect text))
    else
      restore (((chunk (protect text) 900).map
        (transliterate_chunk api)).flatten)) = restore (protect text)
  rw [if_neg h0, if_neg he]
  by_cases h2 : (protect text).length ≤ 900
  · rw [if_pos h2, h1 api _ (hfail _)]
  · rw [if_neg h2,
      List.map_congr_left (fun c _ => h1 api c (hfail c)),
      List.map_id']
    have h := chunkGo_flatten (protect text) 900 (by omega)
      (protect text).length 0 (by omega)
    rw [List.drop_zero] at h
    rw [show chunk (protect text) 900 =
        chunkGo (protect text) 900 (protect text).length 0 from rfl, h]

/-- Witness for C6: a concrete always-raising API leaves a concrete chunk
unchanged. -/
theorem transliterate_chunk_failure_policy_witness :
    ((fun _ : List Char => ApiOutcome.raises) "abc".toList =
        ApiOutcome.raises ∨
      (fun _ : List Char => ApiOutcome.raises) "abc".toList =
        ApiOutcome.missingField) ∧
    transliterate_chunk (fun _ => ApiOutcome.raises) "abc".toList =
      "abc".toList :=
  ⟨Or.inl rfl,
    transliterate_chunk_failure_policy.1 (fun _ => ApiOutcome.raises)
      "abc".toList (Or.inl rfl)⟩

/-! ## Claim theorems about transcript assembly -/

theorem fullTranscript_eq_nil_iff (ts : List (List Char)) :
    fullTranscript ts = [] ↔
      ∀ t ∈ ts, errTag.isPrefixOf t ∨ pyStrip t = [] := by
  induction ts with
  | nil => simp [fullTranscript]
  | cons t rest ih =>
    rw [fullTranscript, List.forall_mem_cons]
    by_cases hk : t ≠ [] ∧ ¬ errTag.isPrefixOf t
    · by_cases hs : pyStrip t ≠ []
      · rw [if_pos hk, if_pos hs]
        constructor
        · intro h
          exact absurd h (List.cons_ne_nil _ _)
        · rintro ⟨h' | h', -⟩
          · exact absurd h' hk.2
          · exact absurd h' hs
      · push_neg at hs
        rw [if_pos hk, if_neg (fun hne => hne hs), ih]
        constructor
        · exact fun h => ⟨Or.inr hs, h⟩
        · exact fun h => h.2
    · rw [if_neg hk, ih]
      have hdt : errTag.isPrefixOf t ∨ pyStrip t = [] := by
        rcases not_and_or.mp hk with h | h
        · push_neg at h
          subst h
          exact Or.inr rfl
        · push_neg at h
          exact Or.inl h
      constructor
      · exact fun h => ⟨hdt, h⟩
      · exact fun h => h.2

/-- C8 counterexample: a chunk whose stripped transcript happens to equal
the error-marker text survives the filter (it is non-empty and not
error-flagged), yet `transcribe_audio_chunks` still returns the error
marker — the marker is not returned *exactly* when every chunk fails. -/
theorem transcribe_marker_cex :
    ((' ' :: errMarker) ≠ [] ∧ ¬ errTag.isPrefixOf (' ' :: errMarker) ∧
      pyStrip (' ' :: errMarker) ≠ []) ∧
    transcribe_audio_chunks [(' ' :: errMarker)] = errMarker := by
  decide

/-- C8 (amended): `transcribe_audio_chunks` takes its explicit-error branch
exactly when every chunk's transcription is error-flagged or whitespace
only: in that case it returns the error marker, and otherwise it returns
the assembly of the surviving chunks (which can only coincide with the
marker text by content). -/
theorem transcribe_marker_iff (ts : List (List Char)) :
    ((∀ t ∈ ts, errTag.isPrefixOf t ∨ pyStrip t = []) →
      transcribe_audio_chunks ts = errMarker) ∧
    ((∃ t ∈ ts, ¬ errTag.isPrefixOf t ∧ pyStrip t ≠ []) →
      transcribe_audio_chunks ts = assemble (fullTranscript ts) ∧
        fullTranscript ts ≠ []) := by
  constructor
  · intro h
    rw [transcribe_audio_chunks, if_pos ((fullTranscript_eq_nil_iff ts).mpr h)]
  · rintro ⟨t, ht, h1, h2⟩
    have hne : fullTranscript ts ≠ [] := by
      intro h
      rcases (fullTranscript_eq_nil_iff ts).mp h t ht with h' | h'
      · exact h1 h'
      · exact h2 h'
    rw [transcribe_audio_chunks, if_neg hne]
    exact ⟨rfl, hne⟩

/-- Witness for C8 (amended): one surviving chunk `"hi"` is assembled, not
escalated. -/
theorem transcribe_marker_iff_witness :
    transcribe_audio_chunks [[ 'h', 'i' ]] =
        assemble (fullTranscript [[ 'h', 'i' ]]) ∧
      fullTranscript [[ 'h', 'i' ]] ≠ [] :=
  (transcribe_marker_iff [[ 'h', 'i' ]]).2
    ⟨[ 'h', 'i' ], by decide, by decide, by decide⟩

/-! ## Helper lemmas about the two passes -/

theorem rule2_eq_flush (l : List Segment) :
    rule2 l = rule2Flush (l.foldl (fun st e => rule2Step st.1 st.2 e) ([], none)) := by
  unfold rule2 rule2Flush
  rcases l.foldl (fun st e => rule2Step st.1 st.2 e) ([], none) with ⟨m, _ | c⟩ <;> rfl

theorem rule2Step_none (merged : List Segment) (e : Segment) :
    rule2Step merged none e = (merged, some e) := rfl

theorem rule2Step_fresh (merged : List Segment) (cm e : Segment)
    (h : cm.speaker_id ≠ e.speaker_id ∨
      e.start_time_seconds - cm.end_time_seconds > 3) :
    rule2Step merged (some cm) e = (merged ++ [cm], some e) := by
  simp only [rule2Step]
  rw [if_pos h]

theorem rule2Step_absorb (merged : List Segment) (cm e : Segment)
    (h : ¬ (cm.speaker_id ≠ e.speaker_id ∨
      e.start_time_seconds - cm.end_time_seconds > 3)) :
    rule2Step merged (some cm) e =
      (merged, some { cm with
        transcript := cm.transcript ++ " " ++ e.transcript,
        end_time_seconds := e.end_time_seconds }) := by
  simp only [rule2Step]
  rw [if_neg h]

theorem mergeSpecGo_cons (cm e : Segment) (rest : List Segment) :
    mergeSpecGo cm (e :: rest) =
      if cm.speaker_id = e.speaker_id ∧
         e.start_time_seconds - cm.end_time_seconds ≤ 3 then
        mergeSpecGo { cm with
          transcript := cm.transcript ++ " " ++ e.transcript,
          end_time_seconds := e.end_time_seconds } rest
      else cm :: mergeSpecGo e rest := rfl

theorem rule2_fold_go (l : List Segment) :
    ∀ (merged : List Segment) (cm : Segment),
      rule2Flush (l.foldl (fun st e => rule2Step st.1 st.2 e) (merged, some cm)) =
        merged ++ mergeSpecGo cm l := by
  induction l with
  | nil => intro merged cm; rfl
  | cons e rest ih =>
    intro merged cm
    rw [List.foldl_cons, mergeSpecGo_cons]
    by_cases h : cm.speaker_id = e.speaker_id ∧
        e.start_time_seconds - cm.end_time_seconds ≤ 3
    · have hnot : ¬ (cm.speaker_id ≠ e.speaker_id ∨
          e.start_time_seconds - cm.end_time_seconds > 3) := by
        push_neg
        exact ⟨h.1, h.2⟩
      rw [if_pos h]
      show rule2Flush (rest.foldl (fun st e => rule2Step st.1 st.2 e)
        (rule2Step merged (some cm) e)) = _
      rw [rule2Step_absorb merged cm e hnot]
      exact ih merged _
    · have hor : cm.speaker_id ≠ e.speaker_id ∨
          e.start_time_seconds - cm.end_time_seconds > 3 := by
        rcases not_and_or.mp h with h1 | h2
        · exact Or.inl h1
        · exact Or.inr (lt_of_not_le h2)
      rw [if_neg h]
      show rule2Flush (rest.foldl (fun st e => rule2Step st.1 st.2 e)
        (rule2Step merged (some cm) e)) = _
      rw [rule2Step_fresh merged cm e hor, ih (merged ++ [cm]) e,
        List.append_assoc]
      rfl

theorem rule2_eq_mergeSpec (l : List Segment) : rule2 l = mergeSpec l := by
  rw [rule2_eq_flush]
  cases l with
  | nil => rfl
  | cons e rest =>
    simp only [List.foldl_cons, rule2Step]
    exact rule2_fold_go rest [] e

theorem mergeSpecGo_chain :
    ∀ (l : List Segment) (cm : Segment),
      ∃ m rest', mergeSpecGo cm l = m :: rest' ∧
        m.speaker_id = cm.speaker_id ∧
        m.start_time_seconds = cm.start_time_seconds ∧
        List.Chain' adjOk (m :: rest') := by
  intro l
  induction l with
  | nil =>
    intro cm
    exact ⟨cm, [], rfl, rfl, rfl, List.chain'_singleton cm⟩
  | cons e rest ih =>
    intro cm
    by_cases h : cm.speaker_id = e.speaker_id ∧
        e.start_time_seconds - cm.end_time_seconds ≤ 3
    · obtain ⟨m, rest', heq, hs, hst, hch⟩ :=
        ih { cm with transcript := cm.transcript ++ " " ++ e.transcript,
                     end_time_seconds := e.end_time_seconds }
      exact ⟨m, rest', by rw [mergeSpecGo_cons, if_pos h]; exact heq, hs, hst, hch⟩
    · obtain ⟨m, rest', heq, hs, hst, hch⟩ := ih e
      refine ⟨cm, mergeSpecGo e rest, by rw [mergeSpecGo_cons, if_neg h], rfl, rfl, ?_⟩
      rw [heq]
      refine List.Chain'.cons ?_ hch
      rcases not_and_or.mp h with h1 | h2
      · exact Or.inl (by rw [hs]; exact h1)
      · exact Or.inr (by rw [hst]; exact lt_of_not_le h2)

theorem rule1Go_getElem (p : Segment) :
    ∀ (l : List Segment) (j : Nat) (cur next : Segment),
      l[j]? = some cur → l[j + 1]? = some next →
      ∀ prev : Segment,
        ((j = 0 ∧ prev = p) ∨ (1 ≤ j ∧ (rule1Go p l)[j - 1]? = some prev)) →
        (rule1Go p l)[j]? = some (rule1Update prev cur next)
  | [], j, cur, next, hc, hn => by simp at hc
  | [x], j, cur, next, hc, hn => by
    rcases j with _ | j <;> simp at hn
  | cur0 :: next0 :: rest, j, cur, next, hc, hn => by
    intro prev hprev
    rcases j with _ | k
    · simp only [List.getElem?_cons_zero, Option.some_inj] at hc
      simp only [List.getElem?_cons_succ, List.getElem?_cons_zero,
        Option.some_inj] at hn
      rcases hprev with ⟨_, hp⟩ | ⟨hk, _⟩
      · subst hc hn hp
        simp [rule1Go]
      · omega
    · rw [List.getElem?_cons_succ] at hc hn
      have hstep : rule1Go p (cur0 :: next0 :: rest) =
          rule1Update p cur0 next0 ::
            rule1Go (rule1Update p cur0 next0) (next0 :: rest) := rfl
      rw [hstep, List.getElem?_cons_succ]
      refine rule1Go_getElem (rule1Update p cur0 next0) (next0 :: rest) k
        cur next hc hn prev ?_
      rcases k with _ | k'
      · rcases hprev with ⟨h0, _⟩ | ⟨_, hp⟩
        · omega
        · rw [hstep] at hp
          simp only [Nat.add_sub_cancel, List.getElem?_cons_zero,
            Option.some_inj] at hp
          exact Or.inl ⟨rfl, hp.symm⟩
      · rcases hprev with ⟨h0, _⟩ | ⟨_, hp⟩
        · omega
        · rw [hstep] at hp
          simp only [Nat.add_sub_cancel, List.getElem?_cons_succ] at hp
          refine Or.inr ⟨by omega, ?_⟩
          simpa using hp

/-! ## Claim theorems about the segment refiner -/

/-- C3: in pass 1 of `improve_speaker_consistency`, the segment at an
interior index `i` is reassigned to the left neighbour's speaker exactly
when its duration is under 2 seconds, the left neighbour (as already
processed, i.e. read from the pass-1 output) and the right neighbour (still
unprocessed, i.e. read from the input) carry the same speaker, and its own
speaker differs from the left neighbour's; all other fields are kept. -/
theorem rule1_interior_spec (entries : List Segment) (i : Nat) (h1 : 1 ≤ i)
    (prev cur next : Segment)
    (hp : (rule1 entries)[i - 1]? = some prev)
    (hc : entries[i]? = some cur)
    (hn : entries[i + 1]? = some next) :
    (rule1 entries)[i]? = some (rule1Update prev cur next) := by
  cases entries with
  | nil => simp at hc
  | cons e0 rest =>
    rcases i with _ | j
    · omega
    · simp only [List.getElem?_cons_succ] at hc hn
      have hr : rule1 (e0 :: rest) = e0 :: rule1Go e0 rest := rfl
      rw [hr, List.getElem?_cons_succ]
      refine rule1Go_getElem e0 rest j cur next hc hn prev ?_
      rcases j with _ | k
      · rw [hr] at hp
        simp only [Nat.zero_add, Nat.sub_self, List.getElem?_cons_zero,
          Option.some_inj] at hp
        exact Or.inl ⟨rfl, hp.symm⟩
      · rw [hr] at hp
        simp only [Nat.add_sub_cancel, List.getElem?_cons_succ] at hp
        refine Or.inr ⟨by omega, ?_⟩
        simpa using hp

/-- Witness for C3: on the spec's scenario
`[(A,0,5), (B,5,6.5), (A,6.5,10)]` the middle segment (duration 1.5 < 2,
neighbours both `A`) is reassigned to `A`. -/
theorem rule1_interior_spec_witness :
    (1 : Nat) ≤ 1 ∧
    (rule1 [⟨"A", "a", 0, 5⟩, ⟨"B", "b", 5, 13/2⟩, ⟨"A", "c", 13/2, 10⟩])[1]? =
      some (rule1Update ⟨"A", "a", 0, 5⟩ ⟨"B", "b", 5, 13/2⟩ ⟨"A", "c", 13/2, 10⟩) :=
  ⟨by decide,
    rule1_interior_spec [⟨"A", "a", 0, 5⟩, ⟨"B", "b", 5, 13/2⟩, ⟨"A", "c", 13/2, 10⟩]
      1 (by decide) ⟨"A", "a", 0, 5⟩ ⟨"B", "b", 5, 13/2⟩ ⟨"A", "c", 13/2, 10⟩
      rfl rfl rfl⟩

/-- C4: pass 2 of `improve_speaker_consistency` coincides with the spec's
description (a new merged segment starts exactly at the first element, at a
speaker change, or at a gap of more than 3 seconds; otherwise transcripts
are joined with a single space and the end time advances), and in
particular two same-speaker segments separated by more than 3 seconds stay
separate. -/
theorem rule2_merge_spec :
    (∀ l : List Segment, rule2 l = mergeSpec l) ∧
    ∀ a b : Segment, a.speaker_id = b.speaker_id →
      b.start_time_seconds - a.end_time_seconds > 3 →
      rule2 [a, b] = [a, b] := by
  refine ⟨rule2_eq_mergeSpec, fun a b hs hgap => ?_⟩
  rw [rule2_eq_mergeSpec]
  have h : ¬ (a.speaker_id = b.speaker_id ∧
      b.start_time_seconds - a.end_time_seconds ≤ 3) := by
    rintro ⟨-, hle⟩
    exact absurd hgap (not_lt.mpr hle)
  show mergeSpecGo a [b] = [a, b]
  rw [mergeSpecGo_cons, if_neg h]
  rfl

/-- Witness for C4: the spec's scenario `[(A,0,5), (A,40,45)]` (gap 35 > 3)
is kept as two separate merged segments despite the shared speaker. -/
theorem rule2_merge_spec_witness :
    rule2 [⟨"A", "x", 0, 5⟩, ⟨"A", "y", 40, 45⟩] =
      [⟨"A", "x", 0, 5⟩, ⟨"A", "y", 40, 45⟩] :=
  rule2_merge_spec.2 ⟨"A", "x", 0, 5⟩ ⟨"A", "y", 40, 45⟩ rfl (by norm_num)

/-- C10: for any input of at least 3 segments, adjacent segments of the
output of `improve_speaker_consistency` either carry different speakers or
are separated by a gap of strictly more than 3 seconds. -/
theorem improve_output_chain (entries : List Segment)
    (h3 : 3 ≤ entries.length) :
    List.Chain' adjOk (improve_speaker_consistency entries) := by
  have hnot : ¬ entries.length < 3 := by omega
  rw [improve_speaker_consistency, if_neg hnot, rule2_eq_mergeSpec]
  cases hr : rule1 entries with
  | nil => simp [mergeSpec]
  | cons e rest =>
    obtain ⟨m, rest', heq, -, -, hch⟩ := mergeSpecGo_chain rest e
    rw [mergeSpec, heq]
    exact hch

/-- Witness for C10: a concrete 3-segment input whose refined output
satisfies the adjacency invariant. -/
theorem improve_output_chain_witness :
    3 ≤ ([⟨"A", "a", 0, 1⟩, ⟨"B", "b", 1, 10⟩, ⟨"A", "c", 20, 30⟩] :
        List Segment).length ∧
    List.Chain' adjOk (improve_speaker_consistency
      [⟨"A", "a", 0, 1⟩, ⟨"B", "b", 1, 10⟩, ⟨"A", "c", 20, 30⟩]) :=
  ⟨by decide,
    improve_output_chain [⟨"A", "a", 0, 1⟩, ⟨"B", "b", 1, 10⟩, ⟨"A", "c", 20, 30⟩]
      (by decide)⟩

/-- C7: `improve_speaker_consistency` returns the empty sequence on the
empty sequence and returns any input of fewer than 3 segments unchanged. -/
theorem improve_short_input_unchanged :
    improve_speaker_consistency [] = [] ∧
    ∀ l : List Segment, l.length < 3 → improve_speaker_consistency l = l := by
  refine ⟨rfl, fun l h => ?_⟩
  simp [improve_speaker_consistency, h]

/-! ## Speaker-percentage aggregation -/

theorem sum_map_percent (L : List (String × ℚ)) (T : ℚ) :
    (L.map fun p => p.2 / T * 100).sum = (L.map Prod.snd).sum * (100 / T) := by
  induction L with
  | nil => simp
  | cons a L ih =>
    simp only [List.map_cons, List.sum_cons, ih]
    ring

/-- C9 counterexample: on a single zero-duration segment the total time is
0, so no percentages are computed at all and their sum is 0, not 100. -/
theorem speaker_percentages_zero_total :
    ((speaker_percentages [⟨"S", "x", 0, 0⟩]).map Prod.snd).sum ≠ 100 := by
  have ht : total_time [⟨"S", "x", 0, 0⟩] = 0 := by
    norm_num [total_time, speaker_times, addTime]
  rw [speaker_percentages, if_neg (by rw [ht]; exact lt_irrefl 0)]
  norm_num

/-- C9 (amended): whenever the summed total duration is positive, the
speaker percentages `(time_sec / total_time) * 100` computed by
`parse_transcription_results` sum to exactly 100 over all speakers. -/
theorem speaker_percentages_sum (l : List Segment)
    (hpos : 0 < total_time l) :
    ((speaker_percentages l).map Prod.snd).sum = 100 := by
  rw [speaker_percentages, if_pos hpos, List.map_map]
  have hc : (Prod.snd ∘ fun p : String × ℚ => (p.1, p.2 / total_time l * 100)) =
      fun p : String × ℚ => p.2 / total_time l * 100 := rfl
  rw [hc, sum_map_percent]
  show total_time l * (100 / total_time l) = 100
  rw [mul_comm]
  exact div_mul_cancel₀ 100 (ne_of_gt hpos)

/-- Witness for C9: two speakers with durations 1 and 2 give percentages
summing to 100. -/
theorem speaker_percentages_sum_witness :
    0 < total_time [⟨"A", "u", 0, 1⟩, ⟨"B", "v", 1, 3⟩] ∧
    ((speaker_percentages [⟨"A", "u", 0, 1⟩, ⟨"B", "v", 1, 3⟩]).map
      Prod.snd).sum = 100 :=
  ⟨by norm_num [total_time, speaker_times, addTime,
      show ("A" : String) ≠ "B" from by decide],
    speaker_percentages_sum _ (by norm_num [total_time, speaker_times, addTime,
      show ("A" : String) ≠ "B" from by decide])⟩

/-- Witness for C7: a concrete two-segment input is returned unchanged. -/
theorem improve_short_input_unchanged_witness :
    improve_speaker_consistency
        [⟨"A", "x", 0, 1⟩, ⟨"B", "y", 1, 2⟩] =
      [⟨"A", "x", 0, 1⟩, ⟨"B", "y", 1, 2⟩] :=
  improve_short_input_unchanged.2 _ (by decide)

end Sarvam
